import Mathlib

/-!
Shallow embedding of `src/svgt.py` (`precise_image_to_svg`): an image-to-SVG
tracer.  Pixel-exact parts of the pipeline (alpha normalization, channel-count
dispatch, grayscale luma, the adaptive-threshold comparison rule, shoelace
area and polygon moments, centroid truncation and clamping, hex colors, SVG
path strings, Douglas-Peucker simplification) are modelled exactly; the
floating-point kernel stages with no claim about their internals
(`cv2.GaussianBlur`, the Gaussian local-mean window of `adaptiveThreshold`,
`cv2.morphologyEx`, `cv2.findContours`) are abstracted as function parameters
of the pipeline, so every theorem quantifies over them.
-/

namespace Svgt

/-- A 3-channel pixel as OpenCV stores it: blue, green, red. -/
structure Pix where
  b : ℕ
  g : ℕ
  r : ℕ
deriving DecidableEq, Repr

/-- A 4-channel pixel: blue, green, red, alpha (`cv2.IMREAD_UNCHANGED` order). -/
structure Pix4 where
  b : ℕ
  g : ℕ
  r : ℕ
  a : ℕ
deriving DecidableEq, Repr

/-- A contour point, integer pixel coordinates `(x, y)` (OpenCV int32). -/
abbrev Pt : Type := ℤ × ℤ

/-- A contour: an ordered closed polygon, last point implicitly joined to first. -/
abbrev Contour : Type := List Pt

/-- An intensity grid (grayscale or binary mask), indexed `(y, x)`. -/
abbrev Grid : Type := ℕ → ℕ → ℕ

/-- Result of `cv2.imread(path, IMREAD_UNCHANGED)` on a decodable file: a
2-dimensional (single-channel) array, a 3-channel BGR array, or a 4-channel
BGRA array. -/
inductive Loaded where
  | gray (g : List (List ℕ))
  | bgr (img : List (List Pix))
  | bgra (img : List (List Pix4))

/-- Errors the run can surface: `fileNotFound` models the
`FileNotFoundError` raised when `imread` returns `None` (the spec's
`LoadError`); `indexError` models the unhandled `IndexError` raised by
`img.shape[2]` on a 2-dimensional array. -/
inductive Err where
  | fileNotFound
  | indexError
deriving DecidableEq, Repr

/-- One child element of the output drawing, in document order. -/
inductive Shape where
  | rect (x y w h : ℕ) (fill : String)
  | path (d fill stroke : String)
deriving DecidableEq, Repr

/-- The output SVG document: `svgwrite.Drawing(size=(w,h), viewBox=...)`
plus its children in insertion order. -/
structure Doc where
  w : ℕ
  h : ℕ
  viewBox : String
  shapes : List Shape
deriving DecidableEq, Repr

/-- Line 29: `white_bg = np.ones_like(img[:, :, :3]) * 255`. -/
def white : Pix := ⟨255, 255, 255⟩

/-- Line 30, per pixel: `np.where(alpha[..., None] == 0, white_bg, img[:, :, :3])`:
a pixel whose alpha is exactly 0 becomes opaque white, any other pixel keeps
its BGR channels (alpha is dropped, no blending). -/
def compositePixel (p : Pix4) : Pix :=
  if p.a = 0 then white else ⟨p.b, p.g, p.r⟩

/-- Lines 27-30: alpha normalization applied across the whole image. -/
def alphaComposite (rows : List (List Pix4)) : List (List Pix) :=
  rows.map (fun row => row.map compositePixel)

/-- Lines 20-30 of `precise_image_to_svg`: decode result dispatch.  `None`
raises `FileNotFoundError`; a 2-dimensional array reaches `img.shape[2]`
which raises `IndexError`; a 3-channel image passes through; a 4-channel
image is alpha-normalized. -/
def load (input : Option Loaded) : Except Err (List (List Pix)) :=
  match input with
  | none => .error .fileNotFound
  | some (.gray _) => .error .indexError
  | some (.bgr img) => .ok img
  | some (.bgra img) => .ok (alphaComposite img)

/-- `img[y][x]` with out-of-range reads defaulted (all claims clamp indexes
in range before sampling). -/
def sample (img : List (List Pix)) (y x : ℕ) : Pix :=
  (img.getD y []).getD x ⟨0, 0, 0⟩

/-- `img[y][x]` for a 4-channel image. -/
def sample4 (rows : List (List Pix4)) (y x : ℕ) : Pix4 :=
  (rows.getD y []).getD x ⟨0, 0, 0, 0⟩

/-- `w` from `h, w = img.shape[:2]`. -/
def width (img : List (List Pix)) : ℕ := (img.headD []).length

/-- `h` from `h, w = img.shape[:2]`. -/
def height (img : List (List Pix)) : ℕ := img.length

/-- Line 35, per pixel: `cv2.cvtColor(img, cv2.COLOR_BGR2GRAY)` uses OpenCV's
fixed-point luma: `(R*4899 + G*9617 + B*1868 + 2^13) >> 14`. -/
def grayPixel (p : Pix) : ℕ :=
  (4899 * p.r + 9617 * p.g + 1868 * p.b + 8192) / 16384

/-- Line 35 over the whole image. -/
def grayscale (img : List (List Pix)) : Grid :=
  fun y x => grayPixel (sample img y x)

/-- Lines 39-41, per pixel: `cv2.adaptiveThreshold(gray, 255,
ADAPTIVE_THRESH_GAUSSIAN_C, THRESH_BINARY_INV, 15, 8)` writes `255`
(foreground) exactly when `src <= T` where `T = localMean - C` and
`localMean` is the rounded Gaussian-weighted 15x15 neighborhood mean;
otherwise it writes `0`.  The comparison is the exact integer rule OpenCV's
lookup table implements: foreground iff `localMean - src >= C`. -/
def threshPixelInv (localMean src C : ℕ) : ℕ :=
  if (src : ℤ) ≤ (localMean : ℤ) - (C : ℤ) then 255 else 0

/-- Lines 39-41 over the grid, parametrized by the Gaussian local-mean
operator `meanOf` (floating-point 15x15 Gaussian window, abstracted). -/
def adaptiveThresholdInv (meanOf : Grid → Grid) (g : Grid) (C : ℕ) : Grid :=
  fun y x => threshPixelInv (meanOf g y x) (g y x) C

/-- The directed edge list of a closed polygon: each vertex paired with its
cyclic successor (the closing edge included), as OpenCV's contour routines
traverse it. -/
def closedEdges (c : Contour) : List (Pt × Pt) :=
  c.zip (c.rotate 1)

/-- The signed shoelace sum `2 * signedArea` accumulated by both
`cv2.contourArea` and `cv2.moments` over a contour. -/
def a00 (c : Contour) : ℤ :=
  ((closedEdges c).map (fun e => e.1.1 * e.2.2 - e.2.1 * e.1.2)).sum

/-- The accumulator for the first moment in x (`cv2.moments`). -/
def a10 (c : Contour) : ℤ :=
  ((closedEdges c).map
    (fun e => (e.1.1 * e.2.2 - e.2.1 * e.1.2) * (e.1.1 + e.2.1))).sum

/-- The accumulator for the first moment in y (`cv2.moments`). -/
def a01 (c : Contour) : ℤ :=
  ((closedEdges c).map
    (fun e => (e.1.1 * e.2.2 - e.2.1 * e.1.2) * (e.1.2 + e.2.2))).sum

/-- Line 58: `cv2.contourArea(contour)` = `|shoelace sum| / 2`. -/
def contourArea (c : Contour) : ℚ :=
  ((a00 c).natAbs : ℚ) / 2

/-- The sign normalization OpenCV's `contourMoments` applies so that
`m00 >= 0`. -/
def msign (c : Contour) : ℤ :=
  if a00 c < 0 then -1 else 1

/-- `cv2.moments(contour)["m00"]`: the absolute enclosed area. -/
def m00 (c : Contour) : ℚ :=
  ((a00 c).natAbs : ℚ) / 2

/-- `cv2.moments(contour)["m10"]`. -/
def m10 (c : Contour) : ℚ :=
  ((msign c * a10 c : ℤ) : ℚ) / 6

/-- `cv2.moments(contour)["m01"]`. -/
def m01 (c : Contour) : ℚ :=
  ((msign c * a01 c : ℤ) : ℚ) / 6

/-- Lines 57-59: the area filter.  A contour is kept exactly when
`not (cv2.contourArea(contour) < min_area)`. -/
def keptContours (cs : List Contour) (minArea : ℚ) : List Contour :=
  cs.filter (fun c => !decide (contourArea c < minArea))

/-- Python `int()` applied to the exact quotient: truncation toward zero. -/
def rqTrunc (q : ℚ) : ℤ := q.num / (q.den : ℤ)

/-- Line 73: `min(max(v, 0), bound - 1)`. -/
def clampI (v : ℤ) (bound : ℕ) : ℤ := min (max v 0) ((bound : ℤ) - 1)

/-- Lines 66-73: the color-sampling point of a contour.  If `m00 != 0` it is
the truncated centroid `(int(m10/m00), int(m01/m00))`, otherwise the first
vertex of the simplified polygon; both coordinates are then clamped into
`[0, w-1] x [0, h-1]`. -/
def samplePoint (c : Contour) (sc : List Pt) (w h : ℕ) : ℤ × ℤ :=
  let raw := if m00 c ≠ 0
    then (rqTrunc (m10 c / m00 c), rqTrunc (m01 c / m00 c))
    else sc.headD (0, 0)
  (clampI raw.1 w, clampI raw.2 h)

/-- One lowercase hex digit, as `%x` renders it. -/
def hexDigit (n : ℕ) : Char := Nat.digitChar n

/-- `%02x` of a byte value. -/
def hexByte (n : ℕ) : String :=
  String.mk [hexDigit (n / 16), hexDigit (n % 16)]

/-- Lines 54 and 74: `'#%02x%02x%02x' % (r, g, b)`. -/
def hexColor (r g b : ℕ) : String :=
  "#" ++ hexByte r ++ hexByte g ++ hexByte b

/-- `"x,y"` as `f"{cmd} {x},{y}"` renders the coordinates. -/
def coordStr (p : Pt) : String := toString p.1 ++ "," ++ toString p.2

/-- Python `" ".join(...)`. -/
def joinSp : List String → String
  | [] => ""
  | [s] => s
  | s :: rest => s ++ " " ++ joinSp rest

/-- Lines 76-81: the `d` attribute, built by enumerating the simplified
points (`M` for index 0, `L` otherwise), appending `"Z"`, and joining with
single spaces. -/
def pathD (pts : List Pt) : String :=
  joinSp ((pts.enum.map
    (fun ip => (if ip.1 = 0 then "M " else "L ") ++ coordStr ip.2)) ++ ["Z"])

/-- Plain concatenation of a list of strings. -/
def catList : List String → String
  | [] => ""
  | s :: rest => s ++ catList rest

/-- The spec's description of the `d` attribute, written independently of the
code's enumeration: `M x,y` for the first point, `L x,y` for each subsequent
point, and a trailing `Z`. -/
def pathDSpec : List Pt → String
  | [] => "Z"
  | p :: rest =>
    "M " ++ coordStr p ++ catList (rest.map (fun q => " L " ++ coordStr q)) ++ " Z"

/-! ## Douglas-Peucker simplification

Line 64 calls `cv2.approxPolyDP(contour, epsilon, True)`, the library's
Douglas-Peucker routine.  We embed the classical algorithm the library
documents and the spec describes: find the point of maximum perpendicular
deviation from the chord between the kept endpoints; if it deviates by more
than `epsilon`, keep it and recurse on both arcs, otherwise drop every
interior point.  Ties pick the earliest point.  As in the library, the
comparison is done on squared quantities so all arithmetic on the integer
coordinates is exact: for a chord `a-z` the deviation of `p` exceeds
`epsilon` iff `cross(a,z,p)^2 > epsilon^2 * |z-a|^2` (with point distance
when the chord is degenerate), so the tolerance parameter below is
`epsilon^2`. -/

/-- Twice the signed area of triangle `a z p` (numerator of the perpendicular
distance from `p` to line `a-z`). -/
def crossK (a z p : Pt) : ℤ :=
  (p.1 - a.1) * (z.2 - a.2) - (p.2 - a.2) * (z.1 - a.1)

/-- Squared Euclidean distance between two points. -/
def distSqK (a p : Pt) : ℤ :=
  (p.1 - a.1) ^ 2 + (p.2 - a.2) ^ 2

/-- The integer comparison key ordering candidate split points by deviation
from the chord `a-z`: `cross^2` for a proper chord, squared point distance
for a degenerate one. -/
def devKey (a z p : Pt) : ℤ :=
  if a = z then distSqK a p else (crossK a z p) ^ 2

/-- The denominator pairing with `devKey`: deviation of `p` exceeds
`epsilon` iff `devKey a z p > epsilon^2 * chordDenom a z`. -/
def chordDenom (a z : Pt) : ℤ :=
  if a = z then 1 else distSqK a z

/-- Split a candidate list at its first point of maximum key: returns
`(before, argmax, after)` with every earlier point strictly below the
maximum and every later point at most the maximum; `none` iff the list is
empty. -/
def firstMax (f : Pt → ℤ) : List Pt → Option (List Pt × Pt × List Pt)
  | [] => none
  | p :: ps =>
    match firstMax f ps with
    | none => some ([], p, [])
    | some (A, m, B) =>
      if f m ≤ f p then some ([], p, A ++ m :: B) else some (p :: A, m, B)

theorem firstMax_eq_none {f : Pt → ℤ} {l : List Pt} :
    firstMax f l = none ↔ l = [] := by
  cases l with
  | nil => simp [firstMax]
  | cons p ps =>
    simp only [firstMax]
    cases h : firstMax f ps with
    | none => simp
    | some x =>
      obtain ⟨A, m, B⟩ := x
      by_cases hc : f m ≤ f p <;> simp [hc]

theorem firstMax_decomp {f : Pt → ℤ} :
    ∀ {l A m B}, firstMax f l = some (A, m, B) → l = A ++ m :: B := by
  intro l
  induction l with
  | nil => intro A m B h; simp [firstMax] at h
  | cons p ps ih =>
    intro A m B h
    simp only [firstMax] at h
    cases hps : firstMax f ps with
    | none =>
      rw [hps] at h
      simp only [Option.some.injEq, Prod.mk.injEq] at h
      obtain ⟨hA, hm, hB⟩ := h
      subst hA; subst hm; subst hB
      simp [firstMax_eq_none.mp hps]
    | some x =>
      obtain ⟨A', m', B'⟩ := x
      rw [hps] at h
      by_cases hc : f m' ≤ f p
      · simp only [hc, if_true, Option.some.injEq, Prod.mk.injEq] at h
        obtain ⟨hA, hm, hB⟩ := h
        subst hA; subst hm; subst hB
        simp [ih hps]
      · simp only [hc, if_false, Option.some.injEq, Prod.mk.injEq] at h
        obtain ⟨hA, hm, hB⟩ := h
        subst hm; subst hB
        cases A with
        | nil => simp at hA
        | cons q A'' =>
          simp only [List.cons.injEq] at hA
          obtain ⟨hq, hA⟩ := hA
          subst hq; subst hA
          simp [ih hps]

theorem firstMax_left {f : Pt → ℤ} :
    ∀ {l A m B}, firstMax f l = some (A, m, B) → ∀ p ∈ A, f p < f m := by
  intro l
  induction l with
  | nil => intro A m B h; simp [firstMax] at h
  | cons p ps ih =>
    intro A m B h
    simp only [firstMax] at h
    cases hps : firstMax f ps with
    | none =>
      rw [hps] at h
      simp only [Option.some.injEq, Prod.mk.injEq] at h
      obtain ⟨hA, _, _⟩ := h
      subst hA; simp
    | some x =>
      obtain ⟨A', m', B'⟩ := x
      rw [hps] at h
      by_cases hc : f m' ≤ f p
      · simp only [hc, if_true, Option.some.injEq, Prod.mk.injEq] at h
        obtain ⟨hA, _, _⟩ := h
        subst hA; simp
      · simp only [hc, if_false, Option.some.injEq, Prod.mk.injEq] at h
        obtain ⟨hA, hm, hB⟩ := h
        subst hm; subst hB
        cases A with
        | nil => simp at hA
        | cons q A'' =>
          simp only [List.cons.injEq] at hA
          obtain ⟨hq, hA⟩ := hA
          subst hq; subst hA
          intro x hx
          rcases List.mem_cons.mp hx with hx | hx
          · subst hx; omega
          · exact ih hps x hx

theorem firstMax_right {f : Pt → ℤ} :
    ∀ {l A m B}, firstMax f l = some (A, m, B) → ∀ p ∈ B, f p ≤ f m := by
  intro l
  induction l with
  | nil => intro A m B h; simp [firstMax] at h
  | cons p ps ih =>
    intro A m B h
    simp only [firstMax] at h
    cases hps : firstMax f ps with
    | none =>
      rw [hps] at h
      simp only [Option.some.injEq, Prod.mk.injEq] at h
      obtain ⟨_, _, hB⟩ := h
      subst hB; simp
    | some x =>
      obtain ⟨A', m', B'⟩ := x
      rw [hps] at h
      by_cases hc : f m' ≤ f p
      · simp only [hc, if_true, Option.some.injEq, Prod.mk.injEq] at h
        obtain ⟨_, hm, hB⟩ := h
        subst hm; subst hB
        intro x hx
        rcases List.mem_append.mp hx with hx | hx
        · exact le_trans (le_of_lt (firstMax_left hps x hx)) hc
        · rcases List.mem_cons.mp hx with hx | hx
          · subst hx; exact hc
          · exact le_trans (ih hps x hx) hc
      · simp only [hc, if_false, Option.some.injEq, Prod.mk.injEq] at h
        obtain ⟨_, hm, hB⟩ := h
        subst hm; subst hB
        exact ih hps

/-- Reconstruction: a decomposition with the strict-before / at-most-after
property is exactly what `firstMax` returns. -/
theorem firstMax_of_decomp {f : Pt → ℤ} :
    ∀ (A : List Pt) (m : Pt) (B : List Pt),
      (∀ p ∈ A, f p < f m) → (∀ p ∈ B, f p ≤ f m) →
      firstMax f (A ++ m :: B) = some (A, m, B) := by
  intro A
  induction A with
  | nil =>
    intro m B _ hB
    simp only [List.nil_append, firstMax]
    cases hps : firstMax f B with
    | none => simp [firstMax_eq_none.mp hps]
    | some x =>
      obtain ⟨A', m', B'⟩ := x
      have hmem : m' ∈ B := by
        rw [firstMax_decomp hps]; simp
      simp [hB m' hmem, firstMax_decomp hps]
  | cons q A' ih =>
    intro m B hA hB
    have hq : f q < f m := hA q (List.mem_cons_self q A')
    have hA' : ∀ p ∈ A', f p < f m := fun p hp => hA p (List.mem_cons_of_mem q hp)
    simp only [List.cons_append, firstMax, List.append_eq]
    rw [ih m B hA' hB]
    simp [not_le.mpr hq]

section DP

variable {α : Type} [LinearOrderedField α]

/-- Douglas-Peucker on one arc: `a` and `z` are the kept endpoints, `mid`
the candidate points strictly between them, `tSq` the squared tolerance.
The first point of maximum deviation is kept and both sub-arcs are
simplified recursively iff its deviation exceeds the tolerance; otherwise
every interior point is dropped.  Returns the simplified arc including both
endpoints. -/
def dpSeg (tSq : α) (a z : Pt) (mid : List Pt) : List Pt :=
  match h : firstMax (devKey a z) mid with
  | none => [a, z]
  | some (A, m, B) =>
    if ((devKey a z m : ℤ) : α) > tSq * ((chordDenom a z : ℤ) : α) then
      dpSeg tSq a m A ++ (dpSeg tSq m z B).tail
    else [a, z]
termination_by mid.length
decreasing_by
  · have hd := firstMax_decomp h
    subst hd
    simp only [List.length_append, List.length_cons]
    omega
  · have hd := firstMax_decomp h
    subst hd
    simp only [List.length_append, List.length_cons]
    omega

theorem dpSeg_of_none {tSq : α} {a z : Pt} {mid : List Pt}
    (h : firstMax (devKey a z) mid = none) :
    dpSeg tSq a z mid = [a, z] := by
  rw [dpSeg, h]

theorem dpSeg_nil (tSq : α) (a z : Pt) : dpSeg tSq a z [] = [a, z] :=
  dpSeg_of_none (firstMax_eq_none.mpr rfl)

theorem dpSeg_of_some_exceeds {tSq : α} {a z : Pt} {mid A : List Pt} {m : Pt}
    {B : List Pt}
    (h : firstMax (devKey a z) mid = some (A, m, B))
    (hx : ((devKey a z m : ℤ) : α) > tSq * ((chordDenom a z : ℤ) : α)) :
    dpSeg tSq a z mid = dpSeg tSq a m A ++ (dpSeg tSq m z B).tail := by
  rw [dpSeg, h]
  simp [hx]

theorem dpSeg_of_some_within {tSq : α} {a z : Pt} {mid A : List Pt} {m : Pt}
    {B : List Pt}
    (h : firstMax (devKey a z) mid = some (A, m, B))
    (hx : ¬ ((devKey a z m : ℤ) : α) > tSq * ((chordDenom a z : ℤ) : α)) :
    dpSeg tSq a z mid = [a, z] := by
  rw [dpSeg, h]
  simp [hx]

/-- Shape of a simplified arc: it begins with `a`, ends with `z`, and all of
its interior points are drawn from the candidate list. -/
theorem dpSeg_shape (tSq : α) :
    ∀ (n : ℕ) (mid : List Pt), mid.length ≤ n → ∀ (a z : Pt),
      ∃ inner : List Pt,
        dpSeg tSq a z mid = a :: (inner ++ [z]) ∧ ∀ p ∈ inner, p ∈ mid := by
  intro n
  induction n with
  | zero =>
    intro mid hlen a z
    have : mid = [] := List.length_eq_zero.mp (Nat.le_zero.mp hlen)
    subst this
    exact ⟨[], by rw [dpSeg_nil]; rfl, by simp⟩
  | succ n ih =>
    intro mid hlen a z
    cases h : firstMax (devKey a z) mid with
    | none => exact ⟨[], by rw [dpSeg_of_none h]; rfl, by simp⟩
    | some x =>
      obtain ⟨A, m, B⟩ := x
      have hd := firstMax_decomp h
      have hlA : A.length ≤ n := by
        subst hd; simp only [List.length_append, List.length_cons] at hlen; omega
      have hlB : B.length ≤ n := by
        subst hd; simp only [List.length_append, List.length_cons] at hlen; omega
      by_cases hx : ((devKey a z m : ℤ) : α) > tSq * ((chordDenom a z : ℤ) : α)
      · obtain ⟨iL, heL, hmL⟩ := ih A hlA a m
        obtain ⟨iR, heR, hmR⟩ := ih B hlB m z
        refine ⟨iL ++ m :: iR, ?_, ?_⟩
        · rw [dpSeg_of_some_exceeds h hx, heL, heR]
          simp
        · intro p hp
          subst hd
          rcases List.mem_append.mp hp with hp | hp
          · exact List.mem_append.mpr (Or.inl (hmL p hp))
          · rcases List.mem_cons.mp hp with hp | hp
            · subst hp; simp
            · exact List.mem_append.mpr (Or.inr (List.mem_cons_of_mem m (hmR p hp)))
      · exact ⟨[], by rw [dpSeg_of_some_within h hx]; rfl, by simp⟩

/-- Idempotence of one arc: re-simplifying the interior of a simplified arc
with the same tolerance reproduces it unchanged. -/
theorem dpSeg_idem (tSq : α) :
    ∀ (n : ℕ) (mid : List Pt), mid.length ≤ n → ∀ (a z : Pt),
      dpSeg tSq a z ((dpSeg tSq a z mid).tail.dropLast) = dpSeg tSq a z mid := by
  intro n
  induction n with
  | zero =>
    intro mid hlen a z
    have : mid = [] := List.length_eq_zero.mp (Nat.le_zero.mp hlen)
    subst this
    rw [dpSeg_nil]
    show dpSeg tSq a z [] = [a, z]
    exact dpSeg_nil tSq a z
  | succ n ih =>
    intro mid hlen a z
    cases h : firstMax (devKey a z) mid with
    | none =>
      rw [dpSeg_of_none h]
      show dpSeg tSq a z [] = [a, z]
      exact dpSeg_nil tSq a z
    | some x =>
      obtain ⟨A, m, B⟩ := x
      have hd := firstMax_decomp h
      have hlA : A.length ≤ n := by
        subst hd; simp only [List.length_append, List.length_cons] at hlen; omega
      have hlB : B.length ≤ n := by
        subst hd; simp only [List.length_append, List.length_cons] at hlen; omega
      by_cases hx : ((devKey a z m : ℤ) : α) > tSq * ((chordDenom a z : ℤ) : α)
      · obtain ⟨iL, heL, hmL⟩ := dpSeg_shape tSq n A hlA a m
        obtain ⟨iR, heR, hmR⟩ := dpSeg_shape tSq n B hlB m z
        have hstep : dpSeg tSq a z mid
            = dpSeg tSq a m A ++ (dpSeg tSq m z B).tail :=
          dpSeg_of_some_exceeds h hx
        have houter : dpSeg tSq a z mid = a :: ((iL ++ m :: iR) ++ [z]) := by
          rw [hstep, heL, heR]; simp
        have hinterior :
            (dpSeg tSq a z mid).tail.dropLast = iL ++ m :: iR := by
          rw [houter]
          simp only [List.tail_cons]
          exact List.dropLast_concat ..
        rw [hinterior]
        have hfm : firstMax (devKey a z) (iL ++ m :: iR) = some (iL, m, iR) := by
          refine firstMax_of_decomp iL m iR ?_ ?_
          · intro p hp
            exact firstMax_left h p (hmL p hp)
          · intro p hp
            exact firstMax_right h p (hmR p hp)
        rw [dpSeg_of_some_exceeds hfm hx]
        have hiL : (dpSeg tSq a m A).tail.dropLast = iL := by
          rw [heL]
          simp only [List.tail_cons]
          exact List.dropLast_concat ..
        have hiR : (dpSeg tSq m z B).tail.dropLast = iR := by
          rw [heR]
          simp only [List.tail_cons]
          exact List.dropLast_concat ..
        rw [← hiL, ← hiR, ih A hlA a m, ih B hlB m z, hstep]
      · rw [dpSeg_of_some_within h hx]
        show dpSeg tSq a z [] = [a, z]
        exact dpSeg_of_none rfl

/-- Douglas-Peucker on an open polyline: a polyline of at most one point is
returned unchanged; otherwise its first and last points are the initial kept
endpoints and `dpSeg` simplifies the interior. -/
def approxDPOpen (tSq : α) (l : List Pt) : List Pt :=
  if h : l.length ≤ 1 then l
  else
    dpSeg tSq (l.head (by intro hn; subst hn; simp at h))
      (l.getLast (by intro hn; subst hn; simp at h)) l.tail.dropLast

theorem approxDPOpen_short {tSq : α} {l : List Pt} (h : l.length ≤ 1) :
    approxDPOpen tSq l = l := by
  unfold approxDPOpen
  rw [dif_pos h]

theorem approxDPOpen_cons (tSq : α) (a z : Pt) (inner : List Pt) :
    approxDPOpen tSq (a :: (inner ++ [z])) = dpSeg tSq a z inner := by
  unfold approxDPOpen
  rw [dif_neg (by simp)]
  have hlast : ∀ (hh : (a :: (inner ++ [z])) ≠ []),
      (a :: (inner ++ [z])).getLast hh = z := by
    intro hh
    rw [List.getLast_cons (by simp : inner ++ [z] ≠ [])]
    exact List.getLast_append _
  congr 1
  · exact hlast _
  · simp only [List.tail_cons]
    exact List.dropLast_concat ..

/-- Open-polyline Douglas-Peucker is idempotent at a fixed tolerance. -/
theorem approxDPOpen_idem (tSq : α) (l : List Pt) :
    approxDPOpen tSq (approxDPOpen tSq l) = approxDPOpen tSq l := by
  by_cases h : l.length ≤ 1
  · rw [approxDPOpen_short h, approxDPOpen_short h]
  · have hne : l ≠ [] := by intro hn; subst hn; simp at h
    have outEq : approxDPOpen tSq l
        = dpSeg tSq (l.head hne) (l.getLast hne) l.tail.dropLast := by
      unfold approxDPOpen
      rw [dif_neg h]
    obtain ⟨inner, he, -⟩ :=
      dpSeg_shape tSq l.tail.dropLast.length l.tail.dropLast le_rfl
        (l.head hne) (l.getLast hne)
    have hinner : (dpSeg tSq (l.head hne) (l.getLast hne) l.tail.dropLast).tail.dropLast
        = inner := by
      rw [he]
      simp only [List.tail_cons]
      exact List.dropLast_concat ..
    have step1 : approxDPOpen tSq (approxDPOpen tSq l)
        = dpSeg tSq (l.head hne) (l.getLast hne) inner := by
      rw [outEq]
      rw [show dpSeg tSq (l.head hne) (l.getLast hne) l.tail.dropLast
          = l.head hne :: (inner ++ [l.getLast hne]) from he]
      exact approxDPOpen_cons ..
    have step2 : dpSeg tSq (l.head hne) (l.getLast hne) inner
        = dpSeg tSq (l.head hne) (l.getLast hne) l.tail.dropLast := by
      rw [← hinner]
      exact dpSeg_idem tSq l.tail.dropLast.length l.tail.dropLast le_rfl _ _
    rw [step1, step2, ← outEq]

/-- Line 64: `cv2.approxPolyDP(contour, epsilon, True)` — Douglas-Peucker on
a closed contour: the ring is closed by repeating the first vertex, the open
algorithm runs on the result, and the duplicated last vertex is dropped
again.  `tSq` is the squared tolerance `epsilon^2`. -/
def approxPolyDP (tSq : α) (l : List Pt) : List Pt :=
  match l with
  | [] => []
  | p :: rest => (approxDPOpen tSq ((p :: rest) ++ [p])).dropLast

/-- Closed-contour Douglas-Peucker is idempotent at a fixed tolerance. -/
theorem approxPolyDP_idem (tSq : α) (l : List Pt) :
    approxPolyDP tSq (approxPolyDP tSq l) = approxPolyDP tSq l := by
  cases l with
  | nil => rfl
  | cons p rest =>
    have houter : approxDPOpen tSq (p :: (rest ++ [p])) = dpSeg tSq p p rest :=
      approxDPOpen_cons tSq p p rest
    obtain ⟨inner, he, -⟩ := dpSeg_shape tSq rest.length rest le_rfl p p
    have hdrop : (p :: (inner ++ [p])).dropLast = p :: inner := by
      rw [show p :: (inner ++ [p]) = (p :: inner) ++ [p] from rfl]
      exact List.dropLast_concat ..
    have hout : approxPolyDP tSq (p :: rest) = p :: inner := by
      show (approxDPOpen tSq (p :: (rest ++ [p]))).dropLast = p :: inner
      rw [houter, he]
      exact hdrop
    have hinner : (dpSeg tSq p p rest).tail.dropLast = inner := by
      rw [he]
      simp only [List.tail_cons]
      exact List.dropLast_concat ..
    have hsecond : dpSeg tSq p p inner = dpSeg tSq p p rest := by
      rw [← hinner]
      exact dpSeg_idem tSq rest.length rest le_rfl p p
    rw [hout]
    show (approxDPOpen tSq (p :: (inner ++ [p]))).dropLast = p :: inner
    rw [approxDPOpen_cons tSq p p inner, hsecond, he]
    exact hdrop

end DP

/-- Line 62: `cv2.arcLength(contour, True)` — the closed perimeter, the sum
of the Euclidean lengths of all edges including the closing one.  The code
computes this (and `epsilon = detail * peri`) in floating point; the exact
real value is used here. -/
noncomputable def perimeter (c : Contour) : ℝ :=
  ((closedEdges c).map (fun e => Real.sqrt ((distSqK e.1 e.2 : ℤ) : ℝ))).sum

/-- Lines 60-83 for one kept contour: simplify (line 64), pick the sampling
point (lines 66-73), read the fill color (lines 73-74), and build the path
element (lines 76-83).  `tolSq c` stands for the squared tolerance
`(detail * cv2.arcLength(c, True))^2` of lines 62-63, whose floating-point
value has no exact rational form; every theorem holds for all values of
this parameter. -/
def regionShape (img : List (List Pix)) (w h : ℕ) (tolSq : Contour → ℚ)
    (c : Contour) : Shape :=
  let sc := approxPolyDP (tolSq c) c
  let pt := samplePoint c sc w h
  let pix := sample img pt.2.toNat pt.1.toNat
  Shape.path (pathD sc) (hexColor pix.r pix.g pix.b) "none"

/-- Lines 52-85: the SVG document.  The background rectangle fills the
canvas with the hex color of the top-left pixel (channels reordered BGR to
RGB, lines 53-55), then one path per kept contour in extraction order. -/
def emitSVG (img : List (List Pix)) (contours : List Contour)
    (tolSq : Contour → ℚ) (minArea : ℚ) : Doc :=
  let w := width img
  let h := height img
  let bg := sample img 0 0
  ⟨w, h, "0 0 " ++ toString w ++ " " ++ toString h,
    Shape.rect 0 0 w h (hexColor bg.r bg.g bg.b)
      :: (keptContours contours minArea).map (regionShape img w h tolSq)⟩

/-- The whole of `precise_image_to_svg` (lines 6-85).  The floating-point
library stages are parameters: `blurF` models `cv2.GaussianBlur` with sigma
`blur_strength`, `meanOf` the Gaussian local-mean window of
`cv2.adaptiveThreshold`, `morphF` the two `cv2.morphologyEx` calls, and
`findContoursF` the border-following tracer `cv2.findContours`; `tolSq`
models the squared per-contour tolerance `(detail * arcLength)^2`.  The
result is the saved document, or the exception the Python run raises. -/
def precise_image_to_svg (blurF : Grid → Grid) (meanOf : Grid → Grid)
    (morphF : Grid → Grid) (findContoursF : Grid → List Contour)
    (tolSq : Contour → ℚ) (minArea : ℚ) (input : Option Loaded) :
    Except Err Doc :=
  match load input with
  | .error e => .error e
  | .ok img =>
    let g := blurF (grayscale img)
    let thr := adaptiveThresholdInv meanOf g 8
    let clean := morphF thr
    let contours := findContoursF clean
    .ok (emitSVG img contours tolSq minArea)

/-- Serialization of one child element to SVG text (`svgwrite` emits
deterministic XML from these fields; the exact attribute layout is
abstracted into this fixed rendering). -/
def serializeShape : Shape → String
  | .rect x y w h fill =>
    "<rect x=\"" ++ toString x ++ "\" y=\"" ++ toString y ++ "\" width=\""
      ++ toString w ++ "\" height=\"" ++ toString h ++ "\" fill=\"" ++ fill
      ++ "\" />"
  | .path d fill stroke =>
    "<path d=\"" ++ d ++ "\" fill=\"" ++ fill ++ "\" stroke=\"" ++ stroke
      ++ "\" />"

/-- Serialization of the whole document, as `dwg.save()` writes it. -/
def serializeDoc (doc : Doc) : String :=
  "<svg width=\"" ++ toString doc.w ++ "\" height=\"" ++ toString doc.h
    ++ "\" viewBox=\"" ++ doc.viewBox ++ "\">"
    ++ String.join (doc.shapes.map serializeShape) ++ "</svg>"

/-- The bytes the run writes to the output path: nothing when it raised. -/
def writtenOutput : Except Err Doc → Option String
  | .error _ => none
  | .ok doc => some (serializeDoc doc)

/-- The fill of the document's first child if it is a rectangle. -/
def bgFill (doc : Doc) : Option String :=
  match doc.shapes.headD (Shape.path "" "" "") with
  | .rect _ _ _ _ fill => some fill
  | .path _ _ _ => none

/-- The fill color of one region, as `regionShape` computes it. -/
def regionFill (img : List (List Pix)) (w h : ℕ) (tolSq : Contour → ℚ)
    (c : Contour) : String :=
  let sc := approxPolyDP (tolSq c) c
  let pt := samplePoint c sc w h
  let pix := sample img pt.2.toNat pt.1.toNat
  hexColor pix.r pix.g pix.b

theorem regionShape_eq (img : List (List Pix)) (w h : ℕ) (tolSq : Contour → ℚ)
    (c : Contour) :
    regionShape img w h tolSq c
      = Shape.path (pathD (approxPolyDP (tolSq c) c))
          (regionFill img w h tolSq c) "none" := rfl

/-! ## Helper lemmas -/

theorem sample_alphaComposite (rows : List (List Pix4)) (y x : ℕ)
    (hy : y < rows.length) (hx : x < (rows.getD y []).length) :
    sample (alphaComposite rows) y x = compositePixel (sample4 rows y x) := by
  unfold sample sample4 alphaComposite
  have h1 : (rows.map (fun row => row.map compositePixel)).getD y []
      = (rows.getD y []).map compositePixel := by
    rw [List.getD_eq_getElem _ _ (by simpa using hy), List.getD_eq_getElem _ _ hy,
      List.getElem_map]
  rw [h1, List.getD_eq_getElem _ _ (by simpa using hx),
    List.getD_eq_getElem _ _ hx, List.getElem_map]

theorem sample_bounded (img : List (List Pix))
    (hb : ∀ row ∈ img, ∀ p ∈ row, p.b ≤ 255 ∧ p.g ≤ 255 ∧ p.r ≤ 255)
    (y x : ℕ) :
    (sample img y x).b ≤ 255 ∧ (sample img y x).g ≤ 255
      ∧ (sample img y x).r ≤ 255 := by
  unfold sample
  rcases lt_or_ge y img.length with hy | hy
  · have hrow : img.getD y [] ∈ img := by
      rw [List.getD_eq_getElem _ _ hy]
      exact List.getElem_mem ..
    rcases lt_or_ge x (img.getD y []).length with hx | hx
    · have hp : (img.getD y []).getD x ⟨0, 0, 0⟩ ∈ img.getD y [] := by
        rw [List.getD_eq_getElem _ _ hx]
        exact List.getElem_mem ..
      exact hb _ hrow _ hp
    · rw [List.getD_eq_default _ _ hx]
      exact ⟨by decide, by decide, by decide⟩
  · rw [List.getD_eq_default _ _ hy]
    show (0 : ℕ) ≤ 255 ∧ (0 : ℕ) ≤ 255 ∧ (0 : ℕ) ≤ 255
    exact ⟨by decide, by decide, by decide⟩

/-- A lowercase hexadecimal digit character: `0`-`9` (codes 48-57) or
`a`-`f` (codes 97-102). -/
def isHexDigitCh (ch : Char) : Prop :=
  (48 ≤ ch.toNat ∧ ch.toNat ≤ 57) ∨ (97 ≤ ch.toNat ∧ ch.toNat ≤ 102)

instance (ch : Char) : Decidable (isHexDigitCh ch) := by
  unfold isHexDigitCh
  infer_instance

/-- Well-formedness of a fill string as the spec states it. -/
def isRrggbb (s : String) : Prop :=
  s.length = 7 ∧ s.data.headD '0' = '#' ∧ ∀ ch ∈ s.data.tail, isHexDigitCh ch

theorem digitChar_hex : ∀ k ≤ 15, isHexDigitCh (Nat.digitChar k) := by decide

theorem hexByte_hex (n : ℕ) (hn : n ≤ 255) :
    ∀ ch ∈ (hexByte n).data, isHexDigitCh ch := by
  intro ch hch
  have hch' : ch = hexDigit (n / 16) ∨ ch = hexDigit (n % 16) := by
    simpa [hexByte] using hch
  have hmod : n % 16 < 16 := Nat.mod_lt _ (by omega)
  rcases hch' with h | h
  · subst h
    exact digitChar_hex (n / 16) (by omega)
  · subst h
    exact digitChar_hex (n % 16) (by omega)

theorem hexColor_isRrggbb (r g b : ℕ) (hr : r ≤ 255) (hg : g ≤ 255)
    (hb : b ≤ 255) : isRrggbb (hexColor r g b) := by
  have hdata : (hexColor r g b).data
      = '#' :: ((hexByte r).data ++ (hexByte g).data ++ (hexByte b).data) := by
    unfold hexColor
    rw [String.data_append, String.data_append, String.data_append]
    rfl
  have hlen2 : ∀ n, (hexByte n).data.length = 2 := fun n => rfl
  refine ⟨?_, ?_, ?_⟩
  · show (hexColor r g b).data.length = 7
    rw [hdata]
    simp [hlen2]
  · rw [hdata]; rfl
  · rw [hdata]
    intro ch hch
    simp only [List.tail_cons, List.mem_append] at hch
    rcases hch with (h | h) | h
    · exact hexByte_hex r hr ch h
    · exact hexByte_hex g hg ch h
    · exact hexByte_hex b hb ch h

theorem enumFrom_map_L (k : ℕ) (hk : 1 ≤ k) (rest : List Pt) :
    (List.enumFrom k rest).map
        (fun ip => (if ip.1 = 0 then "M " else "L ") ++ coordStr ip.2)
      = rest.map (fun q => "L " ++ coordStr q) := by
  induction rest generalizing k with
  | nil => rfl
  | cons q qs ih =>
    simp only [List.enumFrom, List.map]
    rw [if_neg (by omega)]
    rw [ih (k + 1) (by omega)]

theorem space_L (t : String) : (" " : String) ++ ("L " ++ t) = " L " ++ t := by
  rw [← String.append_assoc]
  rfl

theorem space_Z : (" " : String) ++ "Z" = " Z" := rfl

theorem joinSp_L_run (s : String) (xs : List Pt) :
    joinSp (s :: (xs.map (fun q => "L " ++ coordStr q) ++ ["Z"]))
      = s ++ catList (xs.map (fun q => " L " ++ coordStr q)) ++ " Z" := by
  induction xs generalizing s with
  | nil =>
    show s ++ " " ++ "Z" = s ++ "" ++ " Z"
    rw [String.append_empty, String.append_assoc, space_Z]
  | cons q qs ih =>
    show s ++ " " ++ joinSp (("L " ++ coordStr q) :: (qs.map _ ++ ["Z"]))
      = s ++ ((" L " ++ coordStr q) ++ catList (qs.map _)) ++ " Z"
    rw [ih ("L " ++ coordStr q)]
    simp only [String.append_assoc, space_L]

/-- Refinement: the code's enumerate-and-join rendering of the `d` attribute
equals the spec's `M` / `L` / `Z` description. -/
theorem pathD_eq_pathDSpec (pts : List Pt) : pathD pts = pathDSpec pts := by
  cases pts with
  | nil => rfl
  | cons p rest =>
    show joinSp ((((if (0 : ℕ) = 0 then "M " else "L ") ++ coordStr p)
        :: (List.enumFrom 1 rest).map
          (fun ip => (if ip.1 = 0 then "M " else "L ") ++ coordStr ip.2)) ++ ["Z"])
      = "M " ++ coordStr p ++ catList (rest.map (fun q => " L " ++ coordStr q)) ++ " Z"
    rw [if_pos rfl, enumFrom_map_L 1 (by omega) rest]
    exact joinSp_L_run ("M " ++ coordStr p) rest

/-! ## Claims -/

/-- Claim C1: for every extracted contour the pipeline computes its enclosed
area and discards it before simplification and output when that area is
below `min_area`; the boundary is exact (area `min_area - 1` excluded, area
`min_area` included), and every region in the output document comes from a
contour of area at least `min_area`. -/
theorem c1_area_filter (cs : List Contour) (c : Contour) (minArea : ℚ) :
    (c ∈ keptContours cs minArea ↔ c ∈ cs ∧ minArea ≤ contourArea c)
    ∧ (contourArea c = minArea - 1 → c ∉ keptContours cs minArea)
    ∧ (contourArea c = minArea → c ∈ cs → c ∈ keptContours cs minArea)
    ∧ (∀ (img : List (List Pix)) (tolSq : Contour → ℚ) (s : Shape),
        s ∈ (emitSVG img cs tolSq minArea).shapes.tail →
        ∃ c2, c2 ∈ cs ∧ minArea ≤ contourArea c2
          ∧ s = regionShape img (width img) (height img) tolSq c2) := by
  have hmem : ∀ c', c' ∈ keptContours cs minArea
      ↔ c' ∈ cs ∧ minArea ≤ contourArea c' := by
    intro c'
    simp [keptContours, List.mem_filter, not_lt]
  refine ⟨hmem c, ?_, ?_, ?_⟩
  · intro hc hk
    have hle := ((hmem c).mp hk).2
    rw [hc] at hle
    linarith
  · intro hc hcs
    exact (hmem c).mpr ⟨hcs, by rw [hc]⟩
  · intro img tolSq s hs
    have htail : (emitSVG img cs tolSq minArea).shapes.tail
        = (keptContours cs minArea).map
            (regionShape img (width img) (height img) tolSq) := rfl
    rw [htail] at hs
    obtain ⟨c2, hc2, hs2⟩ := List.mem_map.mp hs
    exact ⟨c2, ((hmem c2).mp hc2).1, ((hmem c2).mp hc2).2, hs2.symm⟩

/-- Claim C1 witness: a rectangle of area exactly 249 is dropped at
`min_area = 250` while a rectangle of area exactly 250 is kept. -/
theorem c1_area_filter_witness :
    (contourArea [((0 : ℤ), (0 : ℤ)), (83, 0), (83, 3), (0, 3)] = 250 - 1
      ∧ [((0 : ℤ), (0 : ℤ)), (83, 0), (83, 3), (0, 3)]
          ∉ keptContours [[((0 : ℤ), (0 : ℤ)), (83, 0), (83, 3), (0, 3)],
              [(0, 0), (25, 0), (25, 10), (0, 10)]] 250)
    ∧ (contourArea [((0 : ℤ), (0 : ℤ)), (25, 0), (25, 10), (0, 10)] = 250
      ∧ [((0 : ℤ), (0 : ℤ)), (25, 0), (25, 10), (0, 10)]
          ∈ keptContours [[((0 : ℤ), (0 : ℤ)), (83, 0), (83, 3), (0, 3)],
              [(0, 0), (25, 0), (25, 10), (0, 10)]] 250) := by
  have h249 : contourArea [((0 : ℤ), (0 : ℤ)), (83, 0), (83, 3), (0, 3)] = 250 - 1 := by
    have h : a00 [((0 : ℤ), (0 : ℤ)), (83, 0), (83, 3), (0, 3)] = 498 := by decide
    unfold contourArea
    rw [h]
    norm_num
  have h250 : contourArea [((0 : ℤ), (0 : ℤ)), (25, 0), (25, 10), (0, 10)] = 250 := by
    have h : a00 [((0 : ℤ), (0 : ℤ)), (25, 0), (25, 10), (0, 10)] = 500 := by decide
    unfold contourArea
    rw [h]
    norm_num
  exact ⟨⟨h249, (c1_area_filter _ _ 250).2.1 h249⟩,
    ⟨h250, (c1_area_filter _ _ 250).2.2.1 h250 (by decide)⟩⟩

/-- Claim C2 counterexample: the claim's strict rule — foreground exactly
when (local mean − pixel) exceeds 8 — is false: at local mean 108 and pixel
100 the difference is exactly 8, the code marks the pixel foreground (255),
and the strict rule calls it background. -/
theorem c2_strict_threshold_refuted :
    ¬ (∀ (meanOf : Grid → Grid) (g : Grid) (y x : ℕ),
        adaptiveThresholdInv meanOf g 8 y x = 255
          ↔ ((meanOf g y x : ℤ) - (g y x : ℤ) > 8)) := by
  intro hcl
  have h := (hcl (fun _ _ _ => 108) (fun _ _ => 100) 0 0).mp (by decide)
  exact absurd (h : (108 : ℤ) - 100 > 8) (by omega)

/-- Claim C2 amended: the binarization marks a pixel foreground (255)
exactly when the local neighborhood mean minus the pixel intensity is at
least the offset 8 (not strictly greater), and background (0) otherwise. -/
theorem c2_threshold_ge (meanOf : Grid → Grid) (g : Grid) (y x : ℕ) :
    (adaptiveThresholdInv meanOf g 8 y x = 255
      ↔ (meanOf g y x : ℤ) - (g y x : ℤ) ≥ 8)
    ∧ (adaptiveThresholdInv meanOf g 8 y x = 0
      ↔ ¬ ((meanOf g y x : ℤ) - (g y x : ℤ) ≥ 8)) := by
  unfold adaptiveThresholdInv threshPixelInv
  split
  · rename_i hc
    refine ⟨⟨fun _ => by omega, fun _ => rfl⟩, ⟨fun h255 => by omega, ?_⟩⟩
    intro hn
    exact absurd (by omega) hn
  · rename_i hc
    refine ⟨⟨fun h0 => by omega, fun hge => by omega⟩, ⟨fun _ => by omega, fun _ => rfl⟩⟩

/-- Claim C3: in the alpha-normalization step, exactly the pixels whose
alpha equals 0 are replaced by opaque white and every pixel with positive
alpha passes through with its color channels unchanged; an image whose
alpha is 0 everywhere becomes indistinguishable from an all-white image of
the same dimensions. -/
theorem c3_alpha_normalization (rows : List (List Pix4)) (y x : ℕ)
    (hy : y < rows.length) (hx : x < (rows.getD y []).length) :
    (sample (alphaComposite rows) y x
      = if (sample4 rows y x).a = 0 then white
        else ⟨(sample4 rows y x).b, (sample4 rows y x).g, (sample4 rows y x).r⟩)
    ∧ ((∀ row ∈ rows, ∀ p ∈ row, p.a = 0) →
        alphaComposite rows = rows.map (fun row => row.map (fun _ => white))) := by
  constructor
  · rw [sample_alphaComposite rows y x hy hx]
    rfl
  · intro hall
    unfold alphaComposite
    refine List.map_congr_left ?_
    intro row hrow
    refine List.map_congr_left ?_
    intro p hp
    unfold compositePixel
    rw [if_pos (hall row hrow p hp)]

/-- Claim C3 witness: on a 1x2 image whose first pixel is fully transparent
and whose second has alpha 9, the first becomes white and the second keeps
its channels. -/
theorem c3_alpha_normalization_witness :
    (0 : ℕ) < ([[⟨1, 2, 3, 0⟩, ⟨4, 5, 6, 9⟩]] : List (List Pix4)).length
    ∧ (1 : ℕ) < (([[⟨1, 2, 3, 0⟩, ⟨4, 5, 6, 9⟩]] : List (List Pix4)).getD 0 []).length
    ∧ ((sample (alphaComposite [[⟨1, 2, 3, 0⟩, ⟨4, 5, 6, 9⟩]]) 0 1
        = if (sample4 [[⟨1, 2, 3, 0⟩, ⟨4, 5, 6, 9⟩]] 0 1).a = 0 then white
          else ⟨(sample4 [[⟨1, 2, 3, 0⟩, ⟨4, 5, 6, 9⟩]] 0 1).b,
            (sample4 [[⟨1, 2, 3, 0⟩, ⟨4, 5, 6, 9⟩]] 0 1).g,
            (sample4 [[⟨1, 2, 3, 0⟩, ⟨4, 5, 6, 9⟩]] 0 1).r⟩)
      ∧ ((∀ row ∈ ([[⟨1, 2, 3, 0⟩, ⟨4, 5, 6, 9⟩]] : List (List Pix4)), ∀ p ∈ row, p.a = 0) →
          alphaComposite [[⟨1, 2, 3, 0⟩, ⟨4, 5, 6, 9⟩]]
            = ([[⟨1, 2, 3, 0⟩, ⟨4, 5, 6, 9⟩]] : List (List Pix4)).map
                (fun row => row.map (fun _ => white)))) :=
  ⟨by decide, by decide,
   c3_alpha_normalization [[⟨1, 2, 3, 0⟩, ⟨4, 5, 6, 9⟩]] 0 1 (by decide) (by decide)⟩

/-- Claim C4: the color-sampling point of a region is the truncated
area-weighted centroid `(int(m10/m00), int(m01/m00))` of the
pre-simplification contour when `m00` is nonzero, and the first vertex of
the simplified polygon when `m00` is zero; in both cases it is clamped into
`[0, w-1] x [0, h-1]`, so the color is read at an in-bounds pixel. -/
theorem c4_sampling_point (c : Contour) (sc : List Pt) (w h : ℕ)
    (hw : 1 ≤ w) (hh : 1 ≤ h) :
    (m00 c ≠ 0 → samplePoint c sc w h
      = (clampI (rqTrunc (m10 c / m00 c)) w, clampI (rqTrunc (m01 c / m00 c)) h))
    ∧ (∀ p rest, m00 c = 0 → sc = p :: rest →
        samplePoint c sc w h = (clampI p.1 w, clampI p.2 h))
    ∧ (0 ≤ (samplePoint c sc w h).1 ∧ (samplePoint c sc w h).1 ≤ (w : ℤ) - 1
       ∧ 0 ≤ (samplePoint c sc w h).2 ∧ (samplePoint c sc w h).2 ≤ (h : ℤ) - 1) := by
  refine ⟨?_, ?_, ?_⟩
  · intro hm
    simp [samplePoint, hm]
  · intro p rest hm hsc
    subst hsc
    simp [samplePoint, hm]
  · unfold samplePoint clampI
    by_cases hm : m00 c ≠ 0 <;> simp only [hm, if_true, if_false, reduceIte] <;>
      constructor <;> try constructor
    all_goals omega

/-- Claim C4 witness: a 25x10 rectangle contour on a 5x5 canvas has nonzero
area; its truncated centroid (12, 5) is clamped to the in-bounds pixel
(4, 4). -/
theorem c4_sampling_point_witness :
    (1 : ℕ) ≤ 5 ∧ (1 : ℕ) ≤ 5
    ∧ ((m00 [((0 : ℤ), (0 : ℤ)), (25, 0), (25, 10), (0, 10)] ≠ 0 →
        samplePoint [((0 : ℤ), (0 : ℤ)), (25, 0), (25, 10), (0, 10)] [] 5 5
          = (clampI (rqTrunc (m10 [((0 : ℤ), (0 : ℤ)), (25, 0), (25, 10), (0, 10)]
                / m00 [((0 : ℤ), (0 : ℤ)), (25, 0), (25, 10), (0, 10)])) 5,
             clampI (rqTrunc (m01 [((0 : ℤ), (0 : ℤ)), (25, 0), (25, 10), (0, 10)]
                / m00 [((0 : ℤ), (0 : ℤ)), (25, 0), (25, 10), (0, 10)])) 5))
      ∧ (∀ p rest, m00 [((0 : ℤ), (0 : ℤ)), (25, 0), (25, 10), (0, 10)] = 0 →
          ([] : List Pt) = p :: rest →
          samplePoint [((0 : ℤ), (0 : ℤ)), (25, 0), (25, 10), (0, 10)] [] 5 5
            = (clampI p.1 5, clampI p.2 5))
      ∧ (0 ≤ (samplePoint [((0 : ℤ), (0 : ℤ)), (25, 0), (25, 10), (0, 10)] [] 5 5).1
         ∧ (samplePoint [((0 : ℤ), (0 : ℤ)), (25, 0), (25, 10), (0, 10)] [] 5 5).1 ≤ (5 : ℤ) - 1
         ∧ 0 ≤ (samplePoint [((0 : ℤ), (0 : ℤ)), (25, 0), (25, 10), (0, 10)] [] 5 5).2
         ∧ (samplePoint [((0 : ℤ), (0 : ℤ)), (25, 0), (25, 10), (0, 10)] [] 5 5).2 ≤ (5 : ℤ) - 1)) :=
  ⟨by decide, by decide,
   c4_sampling_point [((0 : ℤ), (0 : ℤ)), (25, 0), (25, 10), (0, 10)] [] 5 5
     (by decide) (by decide)⟩

/-- Claim C5: the emitted document's first shape is a full-canvas rectangle
filled with the top-left pixel's color as a `#rrggbb` string, and each
region is one path whose `d` attribute is `M x,y` for the first simplified
point, `L x,y` for each subsequent point and a trailing `Z`, with a
`#rrggbb` fill and stroke `none`. -/
theorem c5_document_structure (img : List (List Pix)) (cs : List Contour)
    (tolSq : Contour → ℚ) (minArea : ℚ)
    (hb : ∀ row ∈ img, ∀ p ∈ row, p.b ≤ 255 ∧ p.g ≤ 255 ∧ p.r ≤ 255) :
    (emitSVG img cs tolSq minArea).shapes
      = Shape.rect 0 0 (width img) (height img)
          (hexColor (sample img 0 0).r (sample img 0 0).g (sample img 0 0).b)
        :: (keptContours cs minArea).map (fun c =>
            Shape.path (pathDSpec (approxPolyDP (tolSq c) c))
              (regionFill img (width img) (height img) tolSq c) "none")
    ∧ isRrggbb (hexColor (sample img 0 0).r (sample img 0 0).g (sample img 0 0).b)
    ∧ (∀ c ∈ keptContours cs minArea,
        isRrggbb (regionFill img (width img) (height img) tolSq c)) := by
  refine ⟨?_, ?_, ?_⟩
  · show Shape.rect 0 0 (width img) (height img)
        (hexColor (sample img 0 0).r (sample img 0 0).g (sample img 0 0).b)
      :: (keptContours cs minArea).map
          (regionShape img (width img) (height img) tolSq) = _
    refine congrArg (List.cons _) ?_
    refine List.map_congr_left ?_
    intro c _
    rw [regionShape_eq, pathD_eq_pathDSpec]
  · obtain ⟨h1, h2, h3⟩ := sample_bounded img hb 0 0
    exact hexColor_isRrggbb _ _ _ h3 h2 h1
  · intro c _
    unfold regionFill
    obtain ⟨h1, h2, h3⟩ := sample_bounded img hb _ _
    exact hexColor_isRrggbb _ _ _ h3 h2 h1

/-- Claim C5 witness: on the 1x1 image `[[(1,2,3)]]` with one kept
rectangle contour, the document is the background rectangle followed by
one well-formed path. -/
theorem c5_document_structure_witness :
    (∀ row ∈ ([[⟨1, 2, 3⟩]] : List (List Pix)), ∀ p ∈ row,
        p.b ≤ 255 ∧ p.g ≤ 255 ∧ p.r ≤ 255)
    ∧ ((emitSVG [[⟨1, 2, 3⟩]] [[((0 : ℤ), (0 : ℤ)), (25, 0), (25, 10), (0, 10)]]
          (fun _ => 0) 250).shapes
      = Shape.rect 0 0 (width [[⟨1, 2, 3⟩]]) (height [[⟨1, 2, 3⟩]])
          (hexColor (sample [[⟨1, 2, 3⟩]] 0 0).r (sample [[⟨1, 2, 3⟩]] 0 0).g
            (sample [[⟨1, 2, 3⟩]] 0 0).b)
        :: (keptContours [[((0 : ℤ), (0 : ℤ)), (25, 0), (25, 10), (0, 10)]] 250).map
            (fun c => Shape.path (pathDSpec (approxPolyDP ((fun _ => (0 : ℚ)) c) c))
              (regionFill [[⟨1, 2, 3⟩]] (width [[⟨1, 2, 3⟩]]) (height [[⟨1, 2, 3⟩]])
                (fun _ => 0) c) "none")
      ∧ isRrggbb (hexColor (sample [[⟨1, 2, 3⟩]] 0 0).r (sample [[⟨1, 2, 3⟩]] 0 0).g
          (sample [[⟨1, 2, 3⟩]] 0 0).b)
      ∧ (∀ c ∈ keptContours [[((0 : ℤ), (0 : ℤ)), (25, 0), (25, 10), (0, 10)]] 250,
          isRrggbb (regionFill [[⟨1, 2, 3⟩]] (width [[⟨1, 2, 3⟩]])
            (height [[⟨1, 2, 3⟩]]) (fun _ => 0) c))) :=
  ⟨by decide,
   c5_document_structure [[⟨1, 2, 3⟩]] [[((0 : ℤ), (0 : ℤ)), (25, 0), (25, 10), (0, 10)]]
     (fun _ => 0) 250 (by decide)⟩

/-- Claim C6: when no contour survives the area filter the run still
succeeds: the document written to the output path exists and contains
exactly the background rectangle and no region paths. -/
theorem c6_empty_result (blurF meanOf morphF : Grid → Grid)
    (findContoursF : Grid → List Contour) (tolSq : Contour → ℚ) (minArea : ℚ)
    (img : List (List Pix)) (cs : List Contour)
    (hcs : cs = findContoursF (morphF
      (adaptiveThresholdInv meanOf (blurF (grayscale img)) 8)))
    (hempty : keptContours cs minArea = []) :
    precise_image_to_svg blurF meanOf morphF findContoursF tolSq minArea
        (some (.bgr img))
      = .ok (emitSVG img cs tolSq minArea)
    ∧ (emitSVG img cs tolSq minArea).shapes
      = [Shape.rect 0 0 (width img) (height img)
          (hexColor (sample img 0 0).r (sample img 0 0).g (sample img 0 0).b)]
    ∧ writtenOutput (precise_image_to_svg blurF meanOf morphF findContoursF
        tolSq minArea (some (.bgr img))) ≠ none := by
  have h1 : precise_image_to_svg blurF meanOf morphF findContoursF tolSq minArea
      (some (.bgr img)) = .ok (emitSVG img cs tolSq minArea) := by
    subst hcs
    rfl
  refine ⟨h1, ?_, ?_⟩
  · show Shape.rect 0 0 (width img) (height img)
        (hexColor (sample img 0 0).r (sample img 0 0).g (sample img 0 0).b)
      :: (keptContours cs minArea).map
          (regionShape img (width img) (height img) tolSq) = _
    rw [hempty]
    rfl
  · rw [h1]
    intro hcontra
    exact Option.noConfusion hcontra

/-- Claim C6 witness: a run whose only contour (a unit square, area 1) is
filtered out at `min_area = 250` still produces a document with only the
background rectangle. -/
theorem c6_empty_result_witness :
    ([[((0 : ℤ), (0 : ℤ)), (1, 0), (1, 1), (0, 1)]] : List Contour)
      = (fun _ : Grid => [[((0 : ℤ), (0 : ℤ)), (1, 0), (1, 1), (0, 1)]])
          ((id : Grid → Grid) (adaptiveThresholdInv id
            ((id : Grid → Grid) (grayscale [[⟨9, 9, 9⟩]])) 8))
    ∧ keptContours [[((0 : ℤ), (0 : ℤ)), (1, 0), (1, 1), (0, 1)]] 250 = []
    ∧ (precise_image_to_svg id id id
          (fun _ => [[((0 : ℤ), (0 : ℤ)), (1, 0), (1, 1), (0, 1)]])
          (fun _ => 0) 250 (some (.bgr [[⟨9, 9, 9⟩]]))
        = .ok (emitSVG [[⟨9, 9, 9⟩]]
            [[((0 : ℤ), (0 : ℤ)), (1, 0), (1, 1), (0, 1)]] (fun _ => 0) 250)
      ∧ (emitSVG [[⟨9, 9, 9⟩]] [[((0 : ℤ), (0 : ℤ)), (1, 0), (1, 1), (0, 1)]]
          (fun _ => 0) 250).shapes
        = [Shape.rect 0 0 (width [[⟨9, 9, 9⟩]]) (height [[⟨9, 9, 9⟩]])
            (hexColor (sample [[⟨9, 9, 9⟩]] 0 0).r (sample [[⟨9, 9, 9⟩]] 0 0).g
              (sample [[⟨9, 9, 9⟩]] 0 0).b)]
      ∧ writtenOutput (precise_image_to_svg id id id
          (fun _ => [[((0 : ℤ), (0 : ℤ)), (1, 0), (1, 1), (0, 1)]])
          (fun _ => 0) 250 (some (.bgr [[⟨9, 9, 9⟩]]))) ≠ none) := by
  have hempty : keptContours [[((0 : ℤ), (0 : ℤ)), (1, 0), (1, 1), (0, 1)]] 250
      = [] := by
    have h : a00 [((0 : ℤ), (0 : ℤ)), (1, 0), (1, 1), (0, 1)] = 2 := by decide
    have harea : contourArea [((0 : ℤ), (0 : ℤ)), (1, 0), (1, 1), (0, 1)] < 250 := by
      unfold contourArea
      rw [h]
      norm_num
    unfold keptContours
    rw [List.filter_cons]
    rw [if_neg (by simpa using harea)]
    rfl
  exact ⟨rfl, hempty,
    c6_empty_result id id id
      (fun _ => [[((0 : ℤ), (0 : ℤ)), (1, 0), (1, 1), (0, 1)]])
      (fun _ => 0) 250 [[⟨9, 9, 9⟩]] _ rfl hempty⟩

/-- Claim C7: the pipeline is deterministic — with all parameters fixed,
two runs on equal inputs produce byte-identical serialized output. -/
theorem c7_deterministic (blurF meanOf morphF : Grid → Grid)
    (findContoursF : Grid → List Contour) (tolSq : Contour → ℚ) (minArea : ℚ)
    (input input2 : Option Loaded) (hin : input = input2) :
    writtenOutput (precise_image_to_svg blurF meanOf morphF findContoursF
        tolSq minArea input)
      = writtenOutput (precise_image_to_svg blurF meanOf morphF findContoursF
          tolSq minArea input2) := by
  rw [hin]

/-- Claim C7 witness: two runs on the same 1x1 image agree byte for byte. -/
theorem c7_deterministic_witness :
    (some (Loaded.bgr [[⟨1, 2, 3⟩]]) = some (Loaded.bgr [[⟨1, 2, 3⟩]]))
    ∧ writtenOutput (precise_image_to_svg id id id (fun _ => []) (fun _ => 0) 250
        (some (.bgr [[⟨1, 2, 3⟩]])))
      = writtenOutput (precise_image_to_svg id id id (fun _ => []) (fun _ => 0) 250
        (some (.bgr [[⟨1, 2, 3⟩]]))) :=
  ⟨rfl, c7_deterministic id id id (fun _ => []) (fun _ => 0) 250
    (some (.bgr [[⟨1, 2, 3⟩]])) (some (.bgr [[⟨1, 2, 3⟩]])) rfl⟩

/-- Claim C8: simplification runs Douglas-Peucker on the closed contour
with tolerance `epsilon = detail * perimeter(contour)` (squared here, since
the comparisons are done on squared quantities), and is idempotent at that
fixed tolerance: re-simplifying the already-simplified polygon with the same
epsilon returns it unchanged — for the exact real tolerance of the code and
for every rational tolerance parameter of the embedded pipeline alike. -/
theorem c8_simplification_idempotent (detail : ℝ) (c : Contour)
    (tolSq : Contour → ℚ) :
    approxPolyDP ((detail * perimeter c) ^ 2)
        (approxPolyDP ((detail * perimeter c) ^ 2) c)
      = approxPolyDP ((detail * perimeter c) ^ 2) c
    ∧ approxPolyDP (tolSq c) (approxPolyDP (tolSq c) c)
      = approxPolyDP (tolSq c) c :=
  ⟨approxPolyDP_idem _ c, approxPolyDP_idem _ c⟩

/-- Claim C9: an input that decodes to a single-channel two-dimensional
grid makes `img.shape[2]` raise an unhandled `IndexError` (not the
`LoadError` of the error model), and no output document is written. -/
theorem c9_gray_image_index_error (blurF meanOf morphF : Grid → Grid)
    (findContoursF : Grid → List Contour) (tolSq : Contour → ℚ) (minArea : ℚ)
    (g : List (List ℕ)) :
    precise_image_to_svg blurF meanOf morphF findContoursF tolSq minArea
        (some (.gray g))
      = .error .indexError
    ∧ precise_image_to_svg blurF meanOf morphF findContoursF tolSq minArea
        (some (.gray g))
      ≠ .error .fileNotFound
    ∧ writtenOutput (precise_image_to_svg blurF meanOf morphF findContoursF
        tolSq minArea (some (.gray g))) = none := by
  refine ⟨rfl, ?_, rfl⟩
  intro hcontra
  have h := Except.error.inj hcontra
  exact Err.noConfusion h

/-- Claim C10: for a 4-channel input whose top-left pixel has alpha exactly
0, the background rectangle's fill is `#ffffff` regardless of the RGB
stored there, because the background is sampled after alpha
normalization. -/
theorem c10_background_after_compositing (blurF meanOf morphF : Grid → Grid)
    (findContoursF : Grid → List Contour) (tolSq : Contour → ℚ) (minArea : ℚ)
    (rows : List (List Pix4)) (cs : List Contour)
    (hcs : cs = findContoursF (morphF (adaptiveThresholdInv meanOf
      (blurF (grayscale (alphaComposite rows))) 8)))
    (hr : 0 < rows.length) (hr0 : 0 < (rows.getD 0 []).length)
    (ha : (sample4 rows 0 0).a = 0) :
    precise_image_to_svg blurF meanOf morphF findContoursF tolSq minArea
        (some (.bgra rows))
      = .ok (emitSVG (alphaComposite rows) cs tolSq minArea)
    ∧ bgFill (emitSVG (alphaComposite rows) cs tolSq minArea) = some "#ffffff" := by
  constructor
  · subst hcs
    rfl
  · have hs : sample (alphaComposite rows) 0 0 = white := by
      rw [sample_alphaComposite rows 0 0 hr hr0]
      unfold compositePixel
      rw [if_pos ha]
    show some (hexColor (sample (alphaComposite rows) 0 0).r
        (sample (alphaComposite rows) 0 0).g
        (sample (alphaComposite rows) 0 0).b) = some "#ffffff"
    rw [hs]
    rfl

/-- Claim C10 witness: a 1x1 image storing color (12,34,56) under alpha 0
yields background fill `#ffffff`. -/
theorem c10_background_after_compositing_witness :
    ([] : List Contour) = (fun _ : Grid => ([] : List Contour))
        ((id : Grid → Grid) (adaptiveThresholdInv id ((id : Grid → Grid)
          (grayscale (alphaComposite [[⟨12, 34, 56, 0⟩]]))) 8))
    ∧ (0 : ℕ) < ([[⟨12, 34, 56, 0⟩]] : List (List Pix4)).length
    ∧ (0 : ℕ) < (([[⟨12, 34, 56, 0⟩]] : List (List Pix4)).getD 0 []).length
    ∧ (sample4 [[⟨12, 34, 56, 0⟩]] 0 0).a = 0
    ∧ (precise_image_to_svg id id id (fun _ => []) (fun _ => 0) 250
          (some (.bgra [[⟨12, 34, 56, 0⟩]]))
        = .ok (emitSVG (alphaComposite [[⟨12, 34, 56, 0⟩]]) [] (fun _ => 0) 250)
      ∧ bgFill (emitSVG (alphaComposite [[⟨12, 34, 56, 0⟩]]) [] (fun _ => 0) 250)
        = some "#ffffff") :=
  ⟨rfl, by decide, by decide, by decide,
   c10_background_after_compositing id id id (fun _ => []) (fun _ => 0) 250
     [[⟨12, 34, 56, 0⟩]] [] rfl (by decide) (by decide) (by decide)⟩

end Svgt
